import Mathlib

/-!
Verification of AutoCodebaseIndex (auto_codebase_indexer.py).

Text is modelled as `List Char` (Python strings are sequences of code
points).  Each Python function of the source is embedded as an executable
Lean definition; the external LLM collaborator is an arbitrary function
parameter and every summarization entry point also returns the ordered
trace of collaborator calls it issues.
-/

namespace AutoCodebaseIndex

/-- Whitespace set used by Python str.strip for ASCII text (the source is
operated on source-code text; exotic Unicode whitespace is out of scope). -/
def isPyWhitespace (c : Char) : Bool :=
  c == ' ' || c == '\t' || c == '\n' || c == '\r' || c == '\x0b' || c == '\x0c'

/-- Python str.strip(): drop whitespace from both ends. -/
def pyStrip (l : List Char) : List Char :=
  ((l.dropWhile isPyWhitespace).reverse.dropWhile isPyWhitespace).reverse

/-- Python str.lower(), for the ASCII extensions compared in the source. -/
def pyLower (l : List Char) : List Char :=
  l.map Char.toLower

/-- Candidate boundary keyword match of the regex group (def |class ) at the
current position. -/
def matchBoundary (l : List Char) : Option (List Char) :=
  if ("def ".data).isPrefixOf l then some ("def ".data)
  else if ("class ".data).isPrefixOf l then some ("class ".data)
  else none

/-- Embedding of re.split applied with the pattern (?=^(def |class )) in
MULTILINE mode.  Python's re.split inserts the text captured by the group
into the result list, so each zero-width match at a line start contributes
the matched keyword as an extra element between the surrounding segments.
`atStart` records whether the current position begins a line; `acc` is the
reversed text of the segment being accumulated. -/
def pyBoundarySplit (s : List Char) (atStart : Bool) (acc : List Char) :
    List (List Char) :=
  match s with
  | [] => [acc.reverse]
  | c :: rest =>
    if atStart then
      match matchBoundary (c :: rest) with
      | some kw => acc.reverse :: kw :: pyBoundarySplit rest (c == '\n') [c]
      | none => pyBoundarySplit rest (c == '\n') (c :: acc)
    else
      pyBoundarySplit rest (c == '\n') (c :: acc)

/-- Fixed-size slicing: part[i:i+m] for i in range(0, len(part), m); that
range enumerates ceil(len/m) start offsets 0, m, 2m, ... and each slice
l[i*m : i*m+m] is take m of drop (i*m).  The source only ever invokes this
with m = 10000; for m = 0 Python's range raises, a case unreachable in the
program, and the model (Nat division by zero) returns []. -/
def fixedSlices (m : Nat) (l : List Char) : List (List Char) :=
  (List.range ((l.length + m - 1) / m)).map (fun i => (l.drop (i * m)).take m)

/-- Embedding of split_into_logical_chunks.  The loop body appends, for each
regex part, either nothing (stripped empty), the fixed-size slices of an
oversized stripped part, or the stripped part itself; a for loop appending
per-part results in order is the join of the per-part lists. -/
def split_into_logical_chunks (file_content file_extension : List Char)
    (max_chunk_length : Nat) : List (List Char) :=
  if pyLower file_extension = ".py".data then
    ((pyBoundarySplit file_content true []).map (fun part =>
      let p := pyStrip part
      if p = [] then []
      else if p.length > max_chunk_length then fixedSlices max_chunk_length p
      else [p])).flatten
  else
    if file_content.length > max_chunk_length then
      fixedSlices max_chunk_length file_content
    else [file_content]

/-- One call to the llm_call collaborator: prompt, system message, sampling
temperature and response token cap, exactly the parameters the source
passes. -/
structure LLMCall where
  prompt : List Char
  system_message : List Char
  temperature : Rat
  max_tokens : Nat
deriving DecidableEq

/-- The system message used by every summarization request in the source. -/
def summarizerSystem : List Char :=
  "You are a code summarization assistant.".data

/-- Prompt of the single direct-summary request for a small file. -/
def directPrompt (file_content : List Char) : List Char :=
  "Please provide a concise summary of the following code:\n\n".data
    ++ file_content

/-- The direct-summary request (temperature 0.5, max_tokens 150). -/
def directCall (file_content : List Char) : LLMCall :=
  ⟨directPrompt file_content, summarizerSystem, 1 / 2, 150⟩

/-- Prompt of the per-chunk request; idx is the 0-based enumerate index, so
the label printed is the 1-based position idx + 1. -/
def chunkPrompt (idx : Nat) (chunk : List Char) : List Char :=
  "Please provide a brief summary of the following code chunk (part ".data
    ++ (Nat.repr (idx + 1)).data ++ "):\n\n".data ++ chunk

/-- The per-chunk request (temperature 0.5, max_tokens 150). -/
def chunkCall (idx : Nat) (chunk : List Char) : LLMCall :=
  ⟨chunkPrompt idx chunk, summarizerSystem, 1 / 2, 150⟩

/-- Python str.join with separator "\n". -/
def joinLines (parts : List (List Char)) : List Char :=
  (parts.intersperse ("\n".data)).flatten

/-- Prompt of the synthesis request: fixed header followed by the
newline-joined chunk summaries. -/
def synthesisPrompt (chunk_summaries : List (List Char)) : List Char :=
  ("Please synthesize the following chunk summaries into one overall "
    ++ "summary for the entire file:\n\n").data ++ joinLines chunk_summaries

/-- The synthesis request (temperature 0.5, max_tokens 200). -/
def synthesisCall (chunk_summaries : List (List Char)) : LLMCall :=
  ⟨synthesisPrompt chunk_summaries, summarizerSystem, 1 / 2, 200⟩

/-- DIRECT_SUMMARY_THRESHOLD from summarize_file. -/
def DIRECT_SUMMARY_THRESHOLD : Nat := 10000

/-- Body of summarize_file after a successful read: direct call for content
at most the threshold, otherwise per-chunk calls followed by one synthesis
call.  The result is paired with the ordered trace of collaborator calls
the run issues; llm is the opaque collaborator. -/
def summarizeContent (llm : LLMCall → List Char)
    (file_content ext : List Char) : List Char × List LLMCall :=
  if file_content.length ≤ DIRECT_SUMMARY_THRESHOLD then
    let c := directCall file_content
    (llm c, [c])
  else
    let chunks :=
      split_into_logical_chunks file_content ext DIRECT_SUMMARY_THRESHOLD
    let calls := chunks.enum.map (fun p => chunkCall p.1 p.2)
    let chunk_summaries := calls.map llm
    let sc := synthesisCall chunk_summaries
    (llm sc, calls ++ [sc])

/-- Extension part of os.path.splitext on the file's base name: the suffix
from the last dot, unless every character before that dot is itself a dot
(so ".bashrc" has no extension). -/
def splitextExtension (name : List Char) : List Char :=
  if '.' ∈ name then
    let sepIndex := name.length - 1 - name.reverse.indexOf '.'
    if (name.take sepIndex).any (fun c => c ≠ '.') then name.drop sepIndex
    else []
  else []

/-- Embedding of summarize_file.  The try/except around the read is
modelled by an Except value: a failed read returns the inline error string
and performs no collaborator call. -/
def summarize_file (llm : LLMCall → List Char) (file_name : List Char)
    (read_result : Except (List Char) (List Char)) :
    List Char × List LLMCall :=
  match read_result with
  | .error e => ("Error reading file: ".data ++ e, [])
  | .ok file_content =>
      summarizeContent llm file_content (splitextExtension file_name)

/-- A directory tree as the walker observes it.  A file carries the outcome
of reading it (content or the error message of the raised exception); a
directory carries the outcome of listing it, in the order the filesystem
enumerates entries; special entries are paths that are neither regular
files nor directories. -/
inductive FSEntry where
  | file (name : List Char) (read : Except (List Char) (List Char))
  | dir (name : List Char) (listing : Except (List Char) (List FSEntry))
  | special (name : List Char)

/-- Base name of an entry, the string os.listdir reports. -/
def entryName : FSEntry → List Char
  | .file n _ => n
  | .dir n _ => n
  | .special n => n

/-- Lexicographic code-point comparison, the order Python sorted() uses on
strings. -/
def lexLe : List Char → List Char → Bool
  | [], _ => true
  | _ :: _, [] => false
  | a :: as, b :: bs => if a < b then true else if a = b then lexLe as bs else false

/-- Entry order used by sorted(os.listdir(directory)): by name. -/
def entryLe (a b : FSEntry) : Prop :=
  lexLe (entryName a) (entryName b) = true

instance : DecidableRel entryLe := fun a b =>
  instDecidableEqBool (lexLe (entryName a) (entryName b)) true

/-- sorted(os.listdir(directory)): a stable sort of the enumerated entries
by name. -/
def sortEntries (entries : List FSEntry) : List FSEntry :=
  List.insertionSort entryLe entries

theorem perm_sizeOf_eq {α : Type} [SizeOf α] {l₁ l₂ : List α}
    (h : l₁.Perm l₂) : sizeOf l₁ = sizeOf l₂ := by
  induction h with
  | nil => rfl
  | cons x _ ih => simp only [List.cons.sizeOf_spec]; omega
  | swap x y l => simp only [List.cons.sizeOf_spec]; omega
  | trans _ _ ih₁ ih₂ => omega

theorem sizeOf_sortEntries (entries : List FSEntry) :
    sizeOf (sortEntries entries) = sizeOf entries :=
  perm_sizeOf_eq (List.perm_insertionSort entryLe entries)

/-- The indentation prefix "    " * indent. -/
def indentStr (indent : Nat) : List Char :=
  (List.replicate indent ("    ".data)).flatten

/-- The line announcing a directory. -/
def dirHeader (name : List Char) (indent : Nat) : List Char :=
  indentStr indent ++ "Directory: ".data ++ name

mutual

/-- Embedding of process_directory on a directory node: emit the header
line; on a listing failure emit the single inline error line and return;
otherwise walk the sorted entries.  On non-directory nodes the walker is
never invoked and contributes nothing. -/
def process_directory (llm : LLMCall → List Char) :
    FSEntry → Nat → List (List Char)
  | .dir name (.error e), indent =>
      [dirHeader name indent,
        indentStr indent ++ "    Error reading directory: ".data ++ e]
  | .dir name (.ok entries), indent =>
      dirHeader name indent :: processEntries llm (sortEntries entries) indent
  | .file _ _, _ => []
  | .special _, _ => []
termination_by t _ => sizeOf t
decreasing_by
  simp only [FSEntry.dir.sizeOf_spec, Except.ok.sizeOf_spec,
    sizeOf_sortEntries]
  omega

/-- The for-loop of process_directory over the sorted entries: recurse into
subdirectories at indent + 1, emit the File/Summary line pair for regular
files, silently skip anything else. -/
def processEntries (llm : LLMCall → List Char) :
    List FSEntry → Nat → List (List Char)
  | [], _ => []
  | .dir n lst :: rest, indent =>
      process_directory llm (.dir n lst) (indent + 1)
        ++ processEntries llm rest indent
  | .file n r :: rest, indent =>
      (indentStr indent ++ "    File: ".data ++ n)
        :: (indentStr indent ++ "        Summary: ".data
              ++ (summarize_file llm n r).1)
        :: processEntries llm rest indent
  | .special _ :: rest, indent => processEntries llm rest indent
termination_by l _ => sizeOf l
decreasing_by
  all_goals simp only [List.cons.sizeOf_spec]
  all_goals omega

end

/-- Lines contributed by one directory entry during the walk: the loop body
of process_directory. -/
def entryLines (llm : LLMCall → List Char) (e : FSEntry) (indent : Nat) :
    List (List Char) :=
  match e with
  | .dir n lst => process_directory llm (.dir n lst) (indent + 1)
  | .file n r =>
      [indentStr indent ++ "    File: ".data ++ n,
        indentStr indent ++ "        Summary: ".data
          ++ (summarize_file llm n r).1]
  | .special _ => []

mutual

/-- Canonical form of a tree with every directory listing recursively
sorted: two trees have the same normal form exactly when they present the
same filesystem content under possibly different enumeration orders. -/
def normalizeTree : FSEntry → FSEntry
  | .file n r => .file n r
  | .special n => .special n
  | .dir n (.error e) => .dir n (.error e)
  | .dir n (.ok l) => .dir n (.ok (sortEntries (normalizeListing l)))
termination_by t => sizeOf t
decreasing_by
  simp only [FSEntry.dir.sizeOf_spec, Except.ok.sizeOf_spec]
  omega

def normalizeListing : List FSEntry → List FSEntry
  | [] => []
  | e :: rest => normalizeTree e :: normalizeListing rest
termination_by l => sizeOf l
decreasing_by
  all_goals simp only [List.cons.sizeOf_spec]
  all_goals omega

end

mutual

/-- The shape of a tree: names, directory structure and listing errors,
with every file read outcome erased.  Two trees with equal shapes are the
same tree except possibly for what reading their files returned. -/
def shapeTree : FSEntry → FSEntry
  | .file n _ => .file n (.ok [])
  | .special n => .special n
  | .dir n (.error e) => .dir n (.error e)
  | .dir n (.ok l) => .dir n (.ok (shapeListing l))
termination_by t => sizeOf t
decreasing_by
  simp only [FSEntry.dir.sizeOf_spec, Except.ok.sizeOf_spec]
  omega

def shapeListing : List FSEntry → List FSEntry
  | [] => []
  | e :: rest => shapeTree e :: shapeListing rest
termination_by l => sizeOf l
decreasing_by
  all_goals simp only [List.cons.sizeOf_spec]
  all_goals omega

end

/-- Truncate a line just after the first occurrence of the marker, keeping
the whole line when the marker does not occur. -/
def truncThroughMarker (pat : List Char) : List Char → List Char
  | [] => []
  | c :: rest =>
      if pat.isPrefixOf (c :: rest) then pat
      else c :: truncThroughMarker pat rest

/-- Erase the summary payload of an output line: keep everything up to and
including the first "Summary: " marker. -/
def maskSummary (line : List Char) : List Char :=
  truncThroughMarker ("Summary: ".data) line

/-- The per-chunk requests issued for a large file, in chunk order. -/
def chunkCallsOf (content ext : List Char) : List LLMCall :=
  (split_into_logical_chunks content ext DIRECT_SUMMARY_THRESHOLD).enum.map
    (fun p => chunkCall p.1 p.2)

/-- The chunk summaries collected for a large file, in chunk order. -/
def chunkSummariesOf (llm : LLMCall → List Char) (content ext : List Char) :
    List (List Char) :=
  (chunkCallsOf content ext).map llm

/-- A sample tree holding one unreadable and one readable file. -/
def sampleBadFileTree : FSEntry :=
  .dir ("proj".data)
    (.ok [.file ("a.txt".data) (.error ("denied".data)),
      .file ("b.txt".data) (.ok ("hello".data))])

/-- The same sample tree with the first file readable instead. -/
def sampleGoodFileTree : FSEntry :=
  .dir ("proj".data)
    (.ok [.file ("a.txt".data) (.ok ("text".data)),
      .file ("b.txt".data) (.ok ("hello".data))])

/-- A sample one-entry listing. -/
def sampleListing : List FSEntry := [.special ("s".data)]

/-- A sample directory, enumerated in one order. -/
def sampleTreeEnumA : FSEntry :=
  .dir ("r".data)
    (.ok [.file ("b.txt".data) (.ok ("y".data)),
      .file ("a.txt".data) (.ok ("x".data))])

/-- The same directory, enumerated in the other order. -/
def sampleTreeEnumB : FSEntry :=
  .dir ("r".data)
    (.ok [.file ("a.txt".data) (.ok ("x".data)),
      .file ("b.txt".data) (.ok ("y".data))])

theorem lexLe_total : ∀ a b : List Char, lexLe a b = true ∨ lexLe b a = true := by
  intro a
  induction a with
  | nil => intro b; left; rfl
  | cons x xs ih =>
    intro b
    cases b with
    | nil => right; rfl
    | cons y ys =>
      rcases lt_trichotomy x y with h | h | h
      · left; simp [lexLe, h]
      · subst h
        rcases ih ys with h' | h' <;> simp [lexLe, h', lt_irrefl]
      · right; simp [lexLe, h]

theorem lexLe_trans :
    ∀ a b c : List Char, lexLe a b = true → lexLe b c = true →
      lexLe a c = true := by
  intro a
  induction a with
  | nil => intro b c _ _; rfl
  | cons x xs ih =>
    intro b c hab hbc
    cases b with
    | nil => simp [lexLe] at hab
    | cons y ys =>
      cases c with
      | nil => simp [lexLe] at hbc
      | cons z zs =>
        simp only [lexLe] at hab hbc ⊢
        by_cases hxy : x < y
        · by_cases hyz : y < z
          · simp [lt_trans hxy hyz]
          · simp only [if_neg hyz] at hbc
            by_cases hyz' : y = z
            · subst hyz'; simp [hxy]
            · simp [hyz'] at hbc
        · simp only [if_neg hxy] at hab
          by_cases hxy' : x = y
          · subst hxy'
            simp only [if_pos rfl] at hab
            by_cases hxz : x < z
            · simp [hxz]
            · simp only [if_neg hxz] at hbc ⊢
              by_cases hxz' : x = z
              · subst hxz'
                simp only [if_pos rfl] at hbc ⊢
                exact ih ys zs hab hbc
              · simp [hxz'] at hbc
          · simp [hxy'] at hab

instance : IsTotal FSEntry entryLe :=
  ⟨fun a b => lexLe_total (entryName a) (entryName b)⟩

instance : IsTrans FSEntry entryLe :=
  ⟨fun _ _ _ hab hbc =>
    lexLe_trans _ _ _ hab hbc⟩

theorem entryName_normalizeTree (e : FSEntry) :
    entryName (normalizeTree e) = entryName e := by
  cases e with
  | file n r => simp [normalizeTree, entryName]
  | special n => simp [normalizeTree, entryName]
  | dir n lst => cases lst <;> simp [normalizeTree, entryName]

theorem entryName_shapeTree (e : FSEntry) :
    entryName (shapeTree e) = entryName e := by
  cases e with
  | file n r => simp [shapeTree, entryName]
  | special n => simp [shapeTree, entryName]
  | dir n lst => cases lst <;> simp [shapeTree, entryName]

theorem orderedInsert_map_nameInv (f : FSEntry → FSEntry)
    (hf : ∀ e, entryName (f e) = entryName e) (a : FSEntry) :
    ∀ l, List.orderedInsert entryLe (f a) (l.map f)
      = (List.orderedInsert entryLe a l).map f := by
  intro l
  induction l with
  | nil => simp
  | cons b t ih =>
    by_cases h : entryLe a b
    · have h' : entryLe (f a) (f b) := by
        unfold entryLe at h ⊢; rw [hf, hf]; exact h
      simp [List.orderedInsert, if_pos h, if_pos h']
    · have h' : ¬ entryLe (f a) (f b) := by
        unfold entryLe at h ⊢; rw [hf, hf]; exact h
      simp [List.orderedInsert, if_neg h, if_neg h', ih]

theorem sortEntries_map_nameInv (f : FSEntry → FSEntry)
    (hf : ∀ e, entryName (f e) = entryName e) :
    ∀ l, sortEntries (l.map f) = (sortEntries l).map f := by
  intro l
  induction l with
  | nil => rfl
  | cons a t ih =>
    simp only [sortEntries, List.map_cons, List.insertionSort] at ih ⊢
    rw [ih, orderedInsert_map_nameInv f hf]

theorem normalizeListing_eq_map (l : List FSEntry) :
    normalizeListing l = l.map normalizeTree := by
  induction l with
  | nil => simp [normalizeListing]
  | cons e rest ih => simp [normalizeListing, ih]

theorem shapeListing_eq_map (l : List FSEntry) :
    shapeListing l = l.map shapeTree := by
  induction l with
  | nil => simp [shapeListing]
  | cons e rest ih => simp [shapeListing, ih]

theorem processEntries_eq_flatten (llm : LLMCall → List Char)
    (l : List FSEntry) (indent : Nat) :
    processEntries llm l indent
      = (l.map (fun e => entryLines llm e indent)).flatten := by
  induction l with
  | nil => simp [processEntries]
  | cons e rest ih =>
    cases e with
    | dir n lst => simp [processEntries, entryLines, ih]
    | file n r => simp [processEntries, entryLines, ih]
    | special n => simp [processEntries, entryLines, ih]

theorem indentStr_eq_replicate (indent : Nat) :
    indentStr indent = List.replicate (4 * indent) ' ' := by
  induction indent with
  | zero => rfl
  | succ d ih =>
    have hstep : 4 * (d + 1) = 4 + 4 * d := by ring
    simp only [indentStr, List.replicate_succ, List.flatten_cons] at ih ⊢
    rw [ih, hstep, List.replicate_add]
    rfl

theorem indentStr_all_space (indent : Nat) :
    ∀ c ∈ indentStr indent, c = ' ' := by
  rw [indentStr_eq_replicate]
  intro c hc
  exact (List.eq_of_mem_replicate hc)

theorem truncThroughMarker_spaces (pre payload : List Char)
    (hpre : ∀ c ∈ pre, c = ' ') :
    truncThroughMarker ("Summary: ".data) (pre ++ "Summary: ".data ++ payload)
      = pre ++ "Summary: ".data := by
  induction pre with
  | nil =>
    simp only [List.nil_append]
    have hcons : "Summary: ".data ++ payload
        = 'S' :: ("ummary: ".data ++ payload) := rfl
    rw [hcons]
    unfold truncThroughMarker
    have hpref : ("Summary: ".data).isPrefixOf
        ('S' :: ("ummary: ".data ++ payload)) = true := by
      rw [ List.isPrefixOf_iff_prefix]
      exact List.prefix_append _ _
    rw [if_pos hpref]
  | cons c pre ih =>
    have hc : c = ' ' := hpre c (List.mem_cons_self c pre)
    subst hc
    have hrest : ∀ c ∈ pre, c = ' ' := fun c hc => hpre c (List.mem_cons_of_mem _ hc)
    simp only [List.cons_append]
    unfold truncThroughMarker
    have hnotpref : ("Summary: ".data).isPrefixOf
        (' ' :: (pre ++ "Summary: ".data ++ payload)) = false := by
      have hS : "Summary: ".data = 'S' :: "ummary: ".data := rfl
      rw [hS]
      simp [List.isPrefixOf]
    simp only [List.append_assoc] at hnotpref ⊢
    rw [hnotpref]
    simp only [Bool.false_eq_true, if_false, List.cons.injEq, true_and]
    have := ih hrest
    simpa [List.append_assoc] using this

theorem maskSummary_summaryLine (indent : Nat) (payload : List Char) :
    maskSummary (indentStr indent ++ "        Summary: ".data ++ payload)
      = indentStr indent ++ "        Summary: ".data := by
  have hsplit : "        Summary: ".data
      = "        ".data ++ "Summary: ".data := rfl
  have hpre : ∀ c ∈ indentStr indent ++ "        ".data, c = ' ' := by
    intro c hc
    rcases List.mem_append.mp hc with h | h
    · exact indentStr_all_space indent c h
    · have h8 : "        ".data = List.replicate 8 ' ' := rfl
      rw [h8] at h
      exact List.eq_of_mem_replicate h
  have := truncThroughMarker_spaces (indentStr indent ++ "        ".data)
    payload hpre
  unfold maskSummary
  rw [hsplit]
  simpa [List.append_assoc] using this

theorem fixedSlices_length_le (m : Nat) (l : List Char) :
    ∀ c ∈ fixedSlices m l, c.length ≤ m := by
  intro c hc
  unfold fixedSlices at hc
  rcases List.mem_map.mp hc with ⟨i, _, rfl⟩
  simp [List.length_take]

/-- Every chunk the splitter returns fits in the budget (for a positive
budget; a zero budget makes the Python loop raise). -/
theorem split_chunk_length_le (file_content file_extension : List Char)
    (m : Nat) (_hm : 1 ≤ m) :
    ∀ chunk ∈ split_into_logical_chunks file_content file_extension m,
      chunk.length ≤ m := by
  intro chunk hc
  unfold split_into_logical_chunks at hc
  by_cases hext : pyLower file_extension = ".py".data
  · rw [if_pos hext] at hc
    rcases List.mem_flatten.mp hc with ⟨piece, hpiece, hcp⟩
    rcases List.mem_map.mp hpiece with ⟨part, _, rfl⟩
    by_cases hempty : pyStrip part = []
    · simp [hempty] at hcp
    · rw [if_neg hempty] at hcp
      by_cases hlong : (pyStrip part).length > m
      · rw [if_pos hlong] at hcp
        exact fixedSlices_length_le m (pyStrip part) chunk hcp
      · rw [if_neg hlong] at hcp
        rcases List.mem_singleton.mp hcp with rfl
        omega
  · rw [if_neg hext] at hc
    by_cases hlong : file_content.length > m
    · rw [if_pos hlong] at hc
      exact fixedSlices_length_le m file_content chunk hc
    · rw [if_neg hlong] at hc
      rcases List.mem_singleton.mp hc with rfl
      omega

/-- The walker's output is determined by the normal form of the tree:
trees equal up to listing enumeration order produce identical output. -/
theorem process_congr_normalize :
    ∀ n : Nat,
      (∀ t₁ t₂ (llm : LLMCall → List Char) (indent : Nat),
        sizeOf t₁ ≤ n → normalizeTree t₁ = normalizeTree t₂ →
        process_directory llm t₁ indent = process_directory llm t₂ indent)
      ∧ (∀ l₁ l₂ (llm : LLMCall → List Char) (indent : Nat),
          sizeOf l₁ ≤ n → normalizeListing l₁ = normalizeListing l₂ →
          processEntries llm l₁ indent = processEntries llm l₂ indent) := by
  intro n
  induction n using Nat.strong_induction_on with
  | _ n ih =>
    constructor
    · intro t₁ t₂ llm indent hsize heq
      cases t₁ with
      | file n₁ r₁ =>
        cases t₂ with
        | file n₂ r₂ => simp [process_directory]
        | dir n₂ lst₂ => cases lst₂ <;> simp [normalizeTree] at heq
        | special n₂ => simp [normalizeTree] at heq
      | special n₁ =>
        cases t₂ with
        | file n₂ r₂ => simp [normalizeTree] at heq
        | dir n₂ lst₂ => cases lst₂ <;> simp [normalizeTree] at heq
        | special n₂ => simp [process_directory]
      | dir n₁ lst₁ =>
        cases t₂ with
        | file n₂ r₂ => cases lst₁ <;> simp [normalizeTree] at heq
        | special n₂ => cases lst₁ <;> simp [normalizeTree] at heq
        | dir n₂ lst₂ =>
          cases lst₁ with
          | error e₁ =>
            cases lst₂ with
            | error e₂ =>
              simp only [normalizeTree, FSEntry.dir.injEq,
                Except.error.injEq] at heq
              obtain ⟨rfl, rfl⟩ := heq
              rfl
            | ok l₂ => simp [normalizeTree] at heq
          | ok l₁ =>
            cases lst₂ with
            | error e₂ => simp [normalizeTree] at heq
            | ok l₂ =>
              simp only [normalizeTree, FSEntry.dir.injEq,
                Except.ok.injEq] at heq
              obtain ⟨rfl, hS⟩ := heq
              simp only [process_directory]
              congr 1
              have h₁ : normalizeListing (sortEntries l₁)
                  = normalizeListing (sortEntries l₂) := by
                rw [normalizeListing_eq_map, normalizeListing_eq_map,
                  ← sortEntries_map_nameInv normalizeTree entryName_normalizeTree,
                  ← sortEntries_map_nameInv normalizeTree entryName_normalizeTree,
                  ← normalizeListing_eq_map, ← normalizeListing_eq_map, hS]
              have hsz : sizeOf (sortEntries l₁) < n := by
                rw [sizeOf_sortEntries]
                have hle : sizeOf (FSEntry.dir n₁ (Except.ok l₁)) ≤ n := hsize
                simp only [FSEntry.dir.sizeOf_spec, Except.ok.sizeOf_spec] at hle
                omega
              exact (ih _ hsz).2 _ _ llm indent (le_refl _) h₁
    · intro l₁ l₂ llm indent hsize heq
      cases l₁ with
      | nil =>
        cases l₂ with
        | nil => rfl
        | cons e₂ r₂ => simp [normalizeListing] at heq
      | cons e₁ r₁ =>
        cases l₂ with
        | nil => simp [normalizeListing] at heq
        | cons e₂ r₂ =>
          simp only [normalizeListing, List.cons.injEq] at heq
          obtain ⟨he, hr⟩ := heq
          have hszr : sizeOf r₁ < n := by
            have hle : sizeOf (e₁ :: r₁) ≤ n := hsize
            simp only [List.cons.sizeOf_spec] at hle
            omega
          have hsze : sizeOf e₁ < n := by
            have hle : sizeOf (e₁ :: r₁) ≤ n := hsize
            simp only [List.cons.sizeOf_spec] at hle
            omega
          have hrest := (ih _ hszr).2 r₁ r₂ llm indent (le_refl _) hr
          cases e₁ with
          | dir n₁ lst₁ =>
            cases e₂ with
            | file n₂ r₂' => cases lst₁ <;> simp [normalizeTree] at he
            | special n₂ => cases lst₁ <;> simp [normalizeTree] at he
            | dir n₂ lst₂ =>
              simp only [processEntries]
              rw [hrest]
              congr 1
              exact (ih _ hsze).1 (.dir n₁ lst₁) (.dir n₂ lst₂) llm
                (indent + 1) (le_refl _) he
          | file n₁ rd₁ =>
            cases e₂ with
            | dir n₂ lst₂ => cases lst₂ <;> simp [normalizeTree] at he
            | special n₂ => simp [normalizeTree] at he
            | file n₂ rd₂ =>
              simp only [normalizeTree, FSEntry.file.injEq] at he
              obtain ⟨rfl, rfl⟩ := he
              simp only [processEntries]
              rw [hrest]
          | special n₁ =>
            cases e₂ with
            | dir n₂ lst₂ => cases lst₂ <;> simp [normalizeTree] at he
            | file n₂ rd₂ => simp [normalizeTree] at he
            | special n₂ =>
              simp only [normalizeTree, FSEntry.special.injEq] at he
              subst he
              simp only [processEntries]
              exact hrest

/-- Up to the summary payloads, the walker's output is determined by the
shape of the tree: file read outcomes influence nothing but the text after
each "Summary: " marker. -/
theorem process_congr_shape :
    ∀ n : Nat,
      (∀ t₁ t₂ (llm : LLMCall → List Char) (indent : Nat),
        sizeOf t₁ ≤ n → shapeTree t₁ = shapeTree t₂ →
        (process_directory llm t₁ indent).map maskSummary
          = (process_directory llm t₂ indent).map maskSummary)
      ∧ (∀ l₁ l₂ (llm : LLMCall → List Char) (indent : Nat),
          sizeOf l₁ ≤ n → shapeListing l₁ = shapeListing l₂ →
          (processEntries llm l₁ indent).map maskSummary
            = (processEntries llm l₂ indent).map maskSummary) := by
  intro n
  induction n using Nat.strong_induction_on with
  | _ n ih =>
    constructor
    · intro t₁ t₂ llm indent hsize heq
      cases t₁ with
      | file n₁ r₁ =>
        cases t₂ with
        | file n₂ r₂ => simp [process_directory]
        | dir n₂ lst₂ => cases lst₂ <;> simp [shapeTree] at heq
        | special n₂ => simp [shapeTree] at heq
      | special n₁ =>
        cases t₂ with
        | file n₂ r₂ => simp [shapeTree] at heq
        | dir n₂ lst₂ => cases lst₂ <;> simp [shapeTree] at heq
        | special n₂ => simp [process_directory]
      | dir n₁ lst₁ =>
        cases t₂ with
        | file n₂ r₂ => cases lst₁ <;> simp [shapeTree] at heq
        | special n₂ => cases lst₁ <;> simp [shapeTree] at heq
        | dir n₂ lst₂ =>
          cases lst₁ with
          | error e₁ =>
            cases lst₂ with
            | error e₂ =>
              simp only [shapeTree, FSEntry.dir.injEq,
                Except.error.injEq] at heq
              obtain ⟨rfl, rfl⟩ := heq
              rfl
            | ok l₂ => simp [shapeTree] at heq
          | ok l₁ =>
            cases lst₂ with
            | error e₂ => simp [shapeTree] at heq
            | ok l₂ =>
              simp only [shapeTree, FSEntry.dir.injEq,
                Except.ok.injEq] at heq
              obtain ⟨rfl, hS⟩ := heq
              simp only [process_directory, List.map_cons]
              congr 1
              have h₁ : shapeListing (sortEntries l₁)
                  = shapeListing (sortEntries l₂) := by
                rw [shapeListing_eq_map, shapeListing_eq_map,
                  ← sortEntries_map_nameInv shapeTree entryName_shapeTree,
                  ← sortEntries_map_nameInv shapeTree entryName_shapeTree,
                  ← shapeListing_eq_map, ← shapeListing_eq_map, hS]
              have hsz : sizeOf (sortEntries l₁) < n := by
                rw [sizeOf_sortEntries]
                have hle : sizeOf (FSEntry.dir n₁ (Except.ok l₁)) ≤ n := hsize
                simp only [FSEntry.dir.sizeOf_spec, Except.ok.sizeOf_spec] at hle
                omega
              exact (ih _ hsz).2 _ _ llm indent (le_refl _) h₁
    · intro l₁ l₂ llm indent hsize heq
      cases l₁ with
      | nil =>
        cases l₂ with
        | nil => rfl
        | cons e₂ r₂ => simp [shapeListing] at heq
      | cons e₁ r₁ =>
        cases l₂ with
        | nil => simp [shapeListing] at heq
        | cons e₂ r₂ =>
          simp only [shapeListing, List.cons.injEq] at heq
          obtain ⟨he, hr⟩ := heq
          have hszr : sizeOf r₁ < n := by
            have hle : sizeOf (e₁ :: r₁) ≤ n := hsize
            simp only [List.cons.sizeOf_spec] at hle
            omega
          have hsze : sizeOf e₁ < n := by
            have hle : sizeOf (e₁ :: r₁) ≤ n := hsize
            simp only [List.cons.sizeOf_spec] at hle
            omega
          have hrest := (ih _ hszr).2 r₁ r₂ llm indent (le_refl _) hr
          cases e₁ with
          | dir n₁ lst₁ =>
            cases e₂ with
            | file n₂ r₂' => cases lst₁ <;> simp [shapeTree] at he
            | special n₂ => cases lst₁ <;> simp [shapeTree] at he
            | dir n₂ lst₂ =>
              simp only [processEntries, List.map_append]
              rw [hrest]
              congr 1
              exact (ih _ hsze).1 (.dir n₁ lst₁) (.dir n₂ lst₂) llm
                (indent + 1) (le_refl _) he
          | file n₁ rd₁ =>
            cases e₂ with
            | dir n₂ lst₂ => cases lst₂ <;> simp [shapeTree] at he
            | special n₂ => simp [shapeTree] at he
            | file n₂ rd₂ =>
              simp only [shapeTree, FSEntry.file.injEq] at he
              obtain ⟨rfl, -⟩ := he
              simp only [processEntries, List.map_cons]
              rw [hrest, maskSummary_summaryLine, maskSummary_summaryLine]
          | special n₁ =>
            cases e₂ with
            | dir n₂ lst₂ => cases lst₂ <;> simp [shapeTree] at he
            | file n₂ rd₂ => simp [shapeTree] at he
            | special n₂ =>
              simp only [shapeTree, FSEntry.special.injEq] at he
              subst he
              simp only [processEntries]
              exact hrest

theorem matchBoundary_whitespace (c : Char) (rest : List Char)
    (hc : isPyWhitespace c = true) :
    matchBoundary (c :: rest) = none := by
  have hcs : ((((c = ' ' ∨ c = '\t') ∨ c = '\n') ∨ c = '\x0d') ∨ c = '\x0b')
      ∨ c = '\x0c' := by
    simpa [isPyWhitespace, Bool.or_eq_true, beq_iff_eq] using hc
  rcases hcs with ((((rfl | rfl) | rfl) | rfl) | rfl) | rfl <;> rfl

theorem pyBoundarySplit_all_whitespace (s : List Char)
    (h : ∀ c ∈ s, isPyWhitespace c = true) :
    ∀ atStart acc, pyBoundarySplit s atStart acc = [acc.reverse ++ s] := by
  induction s with
  | nil => intro atStart acc; simp [pyBoundarySplit]
  | cons c rest ih =>
    intro atStart acc
    have hc : isPyWhitespace c = true := h c (List.mem_cons_self c rest)
    have hrest : ∀ x ∈ rest, isPyWhitespace x = true :=
      fun x hx => h x (List.mem_cons_of_mem _ hx)
    have hmb := matchBoundary_whitespace c rest hc
    unfold pyBoundarySplit
    rw [hmb]
    cases atStart <;>
      simp [ih hrest, List.reverse_cons, List.append_assoc]

theorem pyStrip_all_whitespace (l : List Char)
    (h : ∀ c ∈ l, isPyWhitespace c = true) : pyStrip l = [] := by
  unfold pyStrip
  have h1 : l.dropWhile isPyWhitespace = [] :=
    List.dropWhile_eq_nil_iff.mpr h
  simp [h1]

theorem split_whitespace_py_empty (content ext : List Char)
    (hext : pyLower ext = ".py".data)
    (hws : ∀ c ∈ content, isPyWhitespace c = true) :
    ∀ m, split_into_logical_chunks content ext m = [] := by
  intro m
  unfold split_into_logical_chunks
  rw [if_pos hext, pyBoundarySplit_all_whitespace content hws true []]
  simp [pyStrip_all_whitespace content hws]

end AutoCodebaseIndex

namespace AutoCodebaseIndex

example :
    pyBoundarySplit ("def f(): pass".data) true []
      = [[], "def ".data, "def f(): pass".data] := by decide

example : splitextExtension ("a.py".data) = ".py".data := by decide

example : splitextExtension (".bashrc".data) = [] := by decide

example : splitextExtension ("a..py".data) = ".py".data := by decide

example : splitextExtension ("x.PY".data) = ".PY".data := by decide

example :
    summarize_file (fun _ => "S".data) ("a.py".data) (.ok ("x = 1".data))
      = ("S".data, [directCall ("x = 1".data)]) := rfl

example :
    summarize_file (fun _ => "S".data) ("a.py".data) (.error ("boom".data))
      = ("Error reading file: boom".data, []) := by decide

/-- C1: the claim that concatenating the returned chunks (ignoring boundary
trimming) reconstructs the input fails on the code.  Python re.split
propagates the text captured by the group inside the lookahead into its
result list, so on the input "def f(): pass" with extension ".py" the
splitter returns an extra chunk "def" in addition to the full chunk
"def f(): pass": the keyword text is duplicated and the concatenation
"defdef f(): pass" is not whitespace-trim equivalent to the input. -/
theorem claim_C1_keyword_chunk_duplicated :
    split_into_logical_chunks ("def f(): pass".data) (".py".data) 10000
        = ["def".data, "def f(): pass".data]
      ∧ (split_into_logical_chunks ("def f(): pass".data) (".py".data)
          10000).flatten.filter (fun c => ! isPyWhitespace c)
        ≠ ("def f(): pass".data).filter (fun c => ! isPyWhitespace c) := by
  constructor
  · decide
  · decide

/-- C2: every chunk returned by split_into_logical_chunks has length at
most the chunk budget, for any content, any extension and any positive
budget (the budget is 10000 at the only call site; a zero budget would
make Python's range raise). -/
theorem claim_C2_chunk_length_bounded (file_content file_extension : List Char)
    (m : Nat) (hm : 1 ≤ m) :
    ∀ chunk ∈ split_into_logical_chunks file_content file_extension m,
      chunk.length ≤ m :=
  split_chunk_length_le file_content file_extension m hm

theorem claim_C2_chunk_length_bounded_witness :
    1 ≤ 2 ∧ ("ab".data).length ≤ 2 :=
  ⟨by decide,
    claim_C2_chunk_length_bounded ("abcde".data) (".txt".data) 2 (by decide)
      ("ab".data) (by decide)⟩

/-- C3: the claim that for ".py" inputs the chunks are exactly the trimmed
non-empty segments between consecutive function/class boundaries fails on
the code: the regex group captured inside the lookahead is inserted into
the part list by Python re.split, so each boundary additionally yields a
stray chunk holding just the keyword.  On "class A:\n    pass" the code
returns the extra chunk "class" before the single true segment. -/
theorem claim_C3_extra_boundary_chunk :
    split_into_logical_chunks ("class A:\n    pass".data) (".py".data) 10000
      = ["class".data, "class A:\n    pass".data] := by decide

/-- C5: for a readable file whose content is within the direct-summary
threshold, summarize_file issues exactly the one direct request, whose
prompt embeds the full content, with output cap 150, and returns the
collaborator's answer verbatim. -/
theorem claim_C5_small_file_single_call (llm : LLMCall → List Char)
    (name content : List Char)
    (h : content.length ≤ DIRECT_SUMMARY_THRESHOLD) :
    summarize_file llm name (.ok content)
        = (llm (directCall content), [directCall content])
      ∧ (directCall content).prompt
          = "Please provide a concise summary of the following code:\n\n".data
              ++ content
      ∧ (directCall content).max_tokens = 150 := by
  refine ⟨?_, rfl, rfl⟩
  simp only [summarize_file, summarizeContent]
  rw [if_pos h]

theorem claim_C5_small_file_single_call_witness :
    ("x = 1".data).length ≤ DIRECT_SUMMARY_THRESHOLD
      ∧ (summarize_file (fun _ => "S".data) ("a.py".data) (.ok ("x = 1".data))
            = ("S".data, [directCall ("x = 1".data)])
          ∧ (directCall ("x = 1".data)).prompt
              = "Please provide a concise summary of the following code:\n\n".data
                  ++ "x = 1".data
          ∧ (directCall ("x = 1".data)).max_tokens = 150) :=
  ⟨by decide,
    claim_C5_small_file_single_call (fun _ => "S".data) ("a.py".data)
      ("x = 1".data) (by decide)⟩

/-- C9: on any directory node the walker's first output line announces the
directory's base name with the "Directory: " prefix, indented by exactly
four space characters per depth level. -/
theorem claim_C9_directory_header (llm : LLMCall → List Char)
    (name : List Char) (listing : Except (List Char) (List FSEntry))
    (indent : Nat) :
    (process_directory llm (.dir name listing) indent).head?
        = some (dirHeader name indent)
      ∧ dirHeader name indent
          = List.replicate (4 * indent) ' ' ++ "Directory: ".data ++ name := by
  constructor
  · cases listing <;> simp [process_directory]
  · rw [dirHeader, indentStr_eq_replicate]

/-- C10: a ".py" input (extension matched case-insensitively) that is empty
or all whitespace splits into no chunks at all, so above the threshold the
summarizer performs zero per-chunk calls and exactly one collaborator
call, the synthesis call over the empty newline-join. -/
theorem claim_C10_whitespace_py_no_chunks (content ext : List Char)
    (hext : pyLower ext = ".py".data)
    (hws : ∀ c ∈ content, isPyWhitespace c = true) :
    (∀ m, split_into_logical_chunks content ext m = [])
      ∧ ∀ (llm : LLMCall → List Char) (name : List Char),
          splitextExtension name = ext →
          DIRECT_SUMMARY_THRESHOLD < content.length →
          summarize_file llm name (.ok content)
            = (llm (synthesisCall []), [synthesisCall []]) := by
  have hsplit := split_whitespace_py_empty content ext hext hws
  refine ⟨hsplit, ?_⟩
  intro llm name hname hbig
  simp only [summarize_file, summarizeContent]
  rw [if_neg (by omega)]
  rw [hname, hsplit DIRECT_SUMMARY_THRESHOLD]
  rfl

theorem claim_C10_whitespace_py_no_chunks_witness :
    pyLower (".PY".data) = ".py".data
      ∧ (∀ c ∈ List.replicate 10001 ' ', isPyWhitespace c = true)
      ∧ splitextExtension ("x.PY".data) = ".PY".data
      ∧ DIRECT_SUMMARY_THRESHOLD < (List.replicate 10001 ' ').length
      ∧ split_into_logical_chunks (List.replicate 10001 ' ') (".PY".data)
          DIRECT_SUMMARY_THRESHOLD = []
      ∧ summarize_file (fun _ => "S".data) ("x.PY".data)
            (.ok (List.replicate 10001 ' '))
          = ("S".data, [synthesisCall []]) := by
  have hws : ∀ c ∈ List.replicate 10001 ' ', isPyWhitespace c = true := by
    intro c hc
    rw [List.eq_of_mem_replicate hc]
    rfl
  have hlen : DIRECT_SUMMARY_THRESHOLD < (List.replicate 10001 ' ').length := by
    rw [List.length_replicate]
    decide
  have h := claim_C10_whitespace_py_no_chunks (List.replicate 10001 ' ')
    (".PY".data) (by decide) hws
  refine ⟨by decide, hws, by decide, hlen, h.1 DIRECT_SUMMARY_THRESHOLD, ?_⟩
  have h2 := h.2 (fun _ => "S".data) ("x.PY".data) (by decide) hlen
  exact h2

example :
    split_into_logical_chunks ("def f(): pass".data) (".py".data) 10000
      = ["def".data, "def f(): pass".data] := by decide

example :
    split_into_logical_chunks ("x = 1\ndef f():\n    pass".data) (".py".data) 10000
      = ["x = 1".data, "def".data, "def f():\n    pass".data] := by decide

example :
    split_into_logical_chunks ("hello".data) (".txt".data) 10000
      = ["hello".data] := by decide

example :
    split_into_logical_chunks ("abcde".data) (".txt".data) 2
      = ["ab".data, "cd".data, "e".data] := by decide

/-- C4: for a readable file above the threshold whose split yields N
chunks, summarize_file issues exactly N + 1 collaborator calls: the N
per-chunk requests in chunk order, each labeled with its 1-based position
and capped at 150 output tokens, followed by one synthesis request capped
at 200 whose prompt embeds all N chunk results in order, newline-joined;
the synthesis result is returned. -/
theorem claim_C4_large_file_call_trace (llm : LLMCall → List Char)
    (name content : List Char)
    (h : DIRECT_SUMMARY_THRESHOLD < content.length) :
    (summarize_file llm name (.ok content)).2
        = chunkCallsOf content (splitextExtension name)
            ++ [synthesisCall
                  (chunkSummariesOf llm content (splitextExtension name))]
      ∧ (summarize_file llm name (.ok content)).2.length
          = (split_into_logical_chunks content (splitextExtension name)
              DIRECT_SUMMARY_THRESHOLD).length + 1
      ∧ (∀ i c,
          (split_into_logical_chunks content (splitextExtension name)
            DIRECT_SUMMARY_THRESHOLD)[i]? = some c →
          (summarize_file llm name (.ok content)).2[i]?
              = some (chunkCall i c)
            ∧ (chunkCall i c).max_tokens = 150
            ∧ (chunkCall i c).prompt
                = ("Please provide a brief summary of the following code "
                    ++ "chunk (part ").data
                    ++ (Nat.repr (i + 1)).data ++ "):\n\n".data ++ c)
      ∧ (synthesisCall
            (chunkSummariesOf llm content (splitextExtension name))).max_tokens
          = 200
      ∧ (synthesisCall
            (chunkSummariesOf llm content (splitextExtension name))).prompt
          = ("Please synthesize the following chunk summaries into one "
              ++ "overall summary for the entire file:\n\n").data
              ++ joinLines
                  (chunkSummariesOf llm content (splitextExtension name))
      ∧ (summarize_file llm name (.ok content)).1
          = llm (synthesisCall
              (chunkSummariesOf llm content (splitextExtension name))) := by
  have hnle : ¬ content.length ≤ DIRECT_SUMMARY_THRESHOLD := by omega
  simp only [summarize_file, summarizeContent]
  rw [if_neg hnle]
  refine ⟨rfl, ?_, ?_, rfl, rfl, rfl⟩
  · simp [List.length_append, List.length_map, List.enum_length]
  · intro i c hc
    have hilt : i < (split_into_logical_chunks content
        (splitextExtension name) DIRECT_SUMMARY_THRESHOLD).length :=
      (List.getElem?_eq_some.mp hc).1
    refine ⟨?_, rfl, rfl⟩
    rw [List.getElem?_append_left (by simp [List.enum_length]; omega)]
    rw [List.getElem?_map, List.getElem?_enum, hc]
    rfl

theorem claim_C4_large_file_call_trace_witness :
    DIRECT_SUMMARY_THRESHOLD < (List.replicate 10001 'a').length
      ∧ (summarize_file (fun _ => "S".data) ("t.txt".data)
            (.ok (List.replicate 10001 'a'))).2.length
          = (split_into_logical_chunks (List.replicate 10001 'a')
              (splitextExtension ("t.txt".data))
              DIRECT_SUMMARY_THRESHOLD).length + 1 := by
  have hlen : DIRECT_SUMMARY_THRESHOLD
      < (List.replicate 10001 'a').length := by
    rw [List.length_replicate]
    decide
  exact ⟨hlen,
    (claim_C4_large_file_call_trace (fun _ => "S".data) ("t.txt".data)
      (List.replicate 10001 'a') hlen).2.1⟩

/-- C6: a failed file read is recovered inside summarize_file, which
returns the inline "Error reading file: " string, issues no collaborator
call, and the walk is otherwise untouched: the walker's output on any two
trees of equal shape — same directories, names and listing outcomes, file
read outcomes free — is identical except for summary payloads, so every
other file still appears with its File and Summary lines. -/
theorem claim_C6_read_error_inline (llm : LLMCall → List Char)
    (name e : List Char) (t₁ t₂ : FSEntry) (indent : Nat)
    (h : shapeTree t₁ = shapeTree t₂) :
    summarize_file llm name (.error e)
        = ("Error reading file: ".data ++ e, [])
      ∧ (process_directory llm t₁ indent).map maskSummary
          = (process_directory llm t₂ indent).map maskSummary :=
  ⟨rfl, (process_congr_shape (sizeOf t₁)).1 t₁ t₂ llm indent (le_refl _) h⟩

theorem claim_C6_read_error_inline_witness :
    shapeTree sampleBadFileTree = shapeTree sampleGoodFileTree
      ∧ summarize_file (fun _ => "S".data) ("a.txt".data)
            (.error ("denied".data))
          = ("Error reading file: denied".data, [])
      ∧ (process_directory (fun _ => "S".data) sampleBadFileTree 0).map
            maskSummary
          = (process_directory (fun _ => "S".data) sampleGoodFileTree 0).map
              maskSummary := by
  have hshape : shapeTree sampleBadFileTree = shapeTree sampleGoodFileTree := by
    simp [sampleBadFileTree, sampleGoodFileTree, shapeTree, shapeListing]
  have happ := claim_C6_read_error_inline (fun _ => "S".data) ("a.txt".data)
    ("denied".data) sampleBadFileTree sampleGoodFileTree 0 hshape
  exact ⟨hshape, happ.1, happ.2⟩

/-- C7: a directory whose listing fails contributes its header plus exactly
one inline error line, with no further lines and no recursion; and in a
readable directory every entry's lines are computed independently from
that entry alone at its sorted position, so a failing subtree never
disturbs sibling or ancestor output. -/
theorem claim_C7_listing_error_single_line (llm : LLMCall → List Char)
    (name e : List Char) (indent : Nat) :
    process_directory llm (.dir name (.error e)) indent
        = [dirHeader name indent,
            indentStr indent ++ "    Error reading directory: ".data ++ e]
      ∧ ∀ (l : List FSEntry) (f : FSEntry → FSEntry),
          (∀ x, entryName (f x) = entryName x) →
          process_directory llm (.dir name (.ok (l.map f))) indent
            = dirHeader name indent
                :: ((sortEntries l).map
                    (fun x => entryLines llm (f x) indent)).flatten := by
  constructor
  · simp [process_directory]
  · intro l f hf
    simp only [process_directory]
    rw [sortEntries_map_nameInv f hf, processEntries_eq_flatten,
      List.map_map]
    rfl

theorem claim_C7_listing_error_single_line_witness :
    process_directory (fun _ => "S".data)
          (.dir ("r".data) (.error ("oops".data))) 0
        = [dirHeader ("r".data) 0,
            indentStr 0 ++ "    Error reading directory: ".data
              ++ "oops".data]
      ∧ process_directory (fun _ => "S".data)
            (.dir ("r".data) (.ok (sampleListing.map id))) 0
          = dirHeader ("r".data) 0
              :: ((sortEntries sampleListing).map
                  (fun x => entryLines (fun _ => "S".data) (id x) 0)).flatten := by
  have h := claim_C7_listing_error_single_line (fun _ => "S".data)
    ("r".data) ("oops".data) 0
  exact ⟨h.1, h.2 sampleListing id (fun _ => rfl)⟩

/-- C8: the walker visits entries in lexicographic order of their names,
and its output is a function of the tree alone: any two enumerations of
the same directory tree — trees with equal recursively-sorted normal
forms — produce identical output. -/
theorem claim_C8_sorted_walk_deterministic (llm : LLMCall → List Char)
    (t₁ t₂ : FSEntry) (indent : Nat)
    (h : normalizeTree t₁ = normalizeTree t₂) :
    process_directory llm t₁ indent = process_directory llm t₂ indent
      ∧ ∀ entries : List FSEntry,
          List.Sorted entryLe (sortEntries entries) :=
  ⟨(process_congr_normalize (sizeOf t₁)).1 t₁ t₂ llm indent (le_refl _) h,
    fun entries => List.sorted_insertionSort entryLe entries⟩

theorem claim_C8_sorted_walk_deterministic_witness :
    normalizeTree sampleTreeEnumA = normalizeTree sampleTreeEnumB
      ∧ process_directory (fun _ => "S".data) sampleTreeEnumA 0
          = process_directory (fun _ => "S".data) sampleTreeEnumB 0
      ∧ List.Sorted entryLe (sortEntries sampleListing) := by
  have hnorm : normalizeTree sampleTreeEnumA = normalizeTree sampleTreeEnumB := by
    simp only [sampleTreeEnumA, sampleTreeEnumB, normalizeTree,
      normalizeListing]
    rfl
  have h := claim_C8_sorted_walk_deterministic (fun _ => "S".data)
    sampleTreeEnumA sampleTreeEnumB 0 hnorm
  exact ⟨hnorm, h.1, h.2 sampleListing⟩

end AutoCodebaseIndex
